import Mathlib

/-!
Verification of the discovery-ranking-extraction pipeline of
`scraper_service.py` (university admission-requirements scraper).

The Python source is shallowly embedded below.  External effects are passed
in as function parameters:

* `svc : String → Int → Option (List (Option String))` models one Google CSE
  call (`http_get_json` inside `google_cse_search`): `none` is any exception
  raised by the call (network, quota, malformed JSON), `some items` is the
  parsed `items` array, where each item's optional `link` field is an
  `Option String`.
* `net : String → Except Unit String` models `requests.get(url).text`
  together with `raise_for_status`: `Except.error ()` is any raised
  exception (timeout, connection error, HTTP error status), `Except.ok t`
  is the response body.
* `sel : String → Except Unit (List String)` models the BeautifulSoup part
  of `extract_snippets`: parsing the HTML and producing, in document order,
  the flattened texts of the selected block elements (keyword / regex hits,
  each with its optional short sibling context already appended).
  `Except.error ()` is a parse fault.  The cap-and-deduplicate tail of
  `extract_snippets` is embedded exactly (`extract_snippets` below).

Strings are processed through explicit `List Char` helpers so that every
operation is executable by the kernel; Python's `str.lower`, `in`,
`startswith`, `endswith` are per-character ASCII operations faithfully
reproduced by the helpers.  `ENGLISH_REGEX` is embedded as an executable
matcher (`englishRegexMatch`) implementing the four alternatives of the
source pattern list, with `re.IGNORECASE` semantics and `\b` word
boundaries.
-/

/-! ## Generic list/string helpers -/

/-- Python list slicing `l[:k]` with an `int` bound: a nonnegative bound
takes the first `k` elements, a negative bound drops `|k|` elements from
the end. -/
def pySlice {α : Type} (k : Int) (l : List α) : List α :=
  if 0 ≤ k then l.take k.toNat else l.take (l.length - (-k).toNat)

/-- One step of the seen-set deduplication loops of the source
(`google_cse_search`, `extract_snippets`, `normalize_english_requirements`,
`discover_english_pages`): keep the first occurrence of each element. -/
def dedupSeen : List String → List String → List String
  | _, [] => []
  | seen, x :: xs => if x ∈ seen then dedupSeen seen xs else x :: dedupSeen (x :: seen) xs

/-- First-occurrence deduplication with an initially empty seen set. -/
def dedupF (l : List String) : List String := dedupSeen [] l

/-- The seen set after running the dedup loop over `l` starting from `seen`. -/
def seenAfter : List String → List String → List String
  | seen, [] => seen
  | seen, x :: xs => if x ∈ seen then seenAfter seen xs else seenAfter (x :: seen) xs

/-- Python dict assignment `d[k] = v` on an insertion-ordered association
list: an existing key keeps its position and gets the new value, a new key
is appended at the end. -/
def assocSet (l : List (String × List String)) (k : String) (v : List String) :
    List (String × List String) :=
  match l with
  | [] => [(k, v)]
  | (k0, v0) :: rest => if k0 = k then (k, v) :: rest else (k0, v0) :: assocSet rest k v

/-- Substring test on character lists (Python `sub in s`). -/
def isInfixB (needle : List Char) : List Char → Bool
  | [] => needle.isPrefixOf []
  | c :: cs => needle.isPrefixOf (c :: cs) || isInfixB needle cs

/-- Python `sub in s` on strings. -/
def containsStr (s sub : String) : Bool := isInfixB sub.toList s.toList

/-- Python `s.lower()` (per-character ASCII lowering). -/
def lowerStr (s : String) : String := String.mk (s.toList.map Char.toLower)

/-- Python `s.endswith(suf)`. -/
def endsWithStr (s suf : String) : Bool := suf.toList.isSuffixOf s.toList

/-- Python `s.startswith(p)`. -/
def startsWithStr (s p : String) : Bool := p.toList.isPrefixOf s.toList

/-- Python `" ".join(t.split())`: split on whitespace runs, dropping empty
pieces, and re-join with single spaces.  `wordsWsGo cur s` accumulates the
current word in reverse in `cur`. -/
def wordsWsGo : List Char → List Char → List (List Char)
  | cur, [] => if cur = [] then [] else [cur.reverse]
  | cur, c :: cs =>
    if c.isWhitespace then
      (if cur = [] then wordsWsGo [] cs else cur.reverse :: wordsWsGo [] cs)
    else wordsWsGo (c :: cur) cs

/-- Whitespace normalisation `" ".join(t.split())` from
`normalize_english_requirements`. -/
def normWs (s : String) : String :=
  String.mk (List.intercalate [' '] (wordsWsGo [] s.toList))

/-! ## Embedded `ENGLISH_REGEX`

The source compiles `"|".join(ENGLISH_PATTERNS)` with `re.IGNORECASE`:

* `IELTS[^.\n]{0,80}\b(6(\.5)?|7(\.0)?)\b[^.\n]{0,120}(band|each|minimum)`
* `TOEFL[^.\n]{0,80}\b(79|80|90|100)\b[^.\n]{0,140}(reading|listening|speaking|writing|section|minimum)`
* `\bPTE\b[^.\n]{0,80}\b(58|60|61)\b[^.\n]{0,140}(communicative|skill|minimum|each)`
* `English language requirement|English proficiency|minimum English`

Each of the first three alternatives is a literal, a bounded gap of
non-`.`/newline characters, a numeric alternation guarded by word
boundaries, a second bounded gap, and a literal alternation.  Word
characters for `\b` are alphanumerics and underscore.  `re.search`
existence over all start positions is the disjunction below; regex
backtracking over these alternation/option patterns is exactly existential
choice, so the matcher is extensionally the source regex on such inputs. -/

/-- Regex `\w` (ASCII inputs). -/
def isWordChar (c : Char) : Bool := c.isAlphanum || c == '_'

/-- Case-insensitive literal match at the head; returns the remainder. -/
def startsWithCI : List Char → List Char → Option (List Char)
  | [], s => some s
  | _ :: _, [] => none
  | p :: ps, c :: cs => if p.toLower == c.toLower then startsWithCI ps cs else none

/-- Does one of the literal alternatives match at the head? -/
def tailHit (tails : List (List Char)) (s : List Char) : Bool :=
  tails.any (fun t => (startsWithCI t s).isSome)

/-- Gap `[^.\n]{0,g}` followed by one of the `tails` literals. -/
def gapTail (tails : List (List Char)) : Nat → List Char → Bool
  | g, s =>
    tailHit tails s ||
      match g, s with
      | Nat.succ g0, c :: cs =>
        if c == '.' || c == '\n' then false else gapTail tails g0 cs
      | _, _ => false

/-- `\b(num-alternation)\b` followed by `[^.\n]{0,g2}(tail-alternation)`.
`prev` is the character immediately before the current position; the
numeric literals begin and end with digits, so the boundaries reduce to
the neighbouring characters not being word characters. -/
def numTail (nums : List (List Char)) (g2 : Nat) (tails : List (List Char))
    (prev : Char) (s : List Char) : Bool :=
  !isWordChar prev && nums.any (fun nm =>
    match startsWithCI nm s with
    | none => false
    | some rest =>
      match rest with
      | [] => false
      | c :: _ => !isWordChar c && gapTail tails g2 rest)

/-- Gap `[^.\n]{0,g1}` followed by the numeric part. -/
def gapNum (nums : List (List Char)) (g2 : Nat) (tails : List (List Char)) :
    Nat → Char → List Char → Bool
  | g1, prev, s =>
    numTail nums g2 tails prev s ||
      match g1, s with
      | Nat.succ g0, c :: cs =>
        if c == '.' || c == '\n' then false else gapNum nums g2 tails g0 c cs
      | _, _ => false

/-- One of the first three `ENGLISH_PATTERNS` alternatives, anchored at the
current position.  `bounded` is true for the PTE pattern, whose literal is
wrapped in `\b...\b`. -/
def litNumTailAt (lit : List Char) (bounded : Bool) (g1 : Nat)
    (nums : List (List Char)) (g2 : Nat) (tails : List (List Char))
    (prev : Option Char) (s : List Char) : Bool :=
  (if bounded then
    (match prev with | none => true | some c => !isWordChar c)
   else true) &&
  match startsWithCI lit s with
  | none => false
  | some rest =>
    (if bounded then
      (match rest with | [] => true | c :: _ => !isWordChar c)
     else true) &&
    gapNum nums g2 tails g1 (lit.getLastD ' ') rest

/-- `re.search`: try the positional matcher at every start position,
threading the previous character for leading word boundaries. -/
def searchGo (p : Option Char → List Char → Bool) : Option Char → List Char → Bool
  | prev, [] => p prev []
  | prev, c :: cs => p prev (c :: cs) || searchGo p (some c) cs

/-- Case-insensitive substring search (the fourth, purely literal pattern). -/
def containsCI (s pat : List Char) : Bool :=
  searchGo (fun _ r => (startsWithCI pat r).isSome) none s

/-- Shorthand for string-literal character lists. -/
def strL (s : String) : List Char := s.toList

/-- `ENGLISH_REGEX.search(s)` as a Bool: the disjunction of the four
compiled alternatives. -/
def englishRegexMatch (s : String) : Bool :=
  let cs := s.toList
  searchGo (litNumTailAt (strL "IELTS") false 80
    [strL "6.5", strL "6", strL "7.0", strL "7"] 120
    [strL "band", strL "each", strL "minimum"]) none cs ||
  searchGo (litNumTailAt (strL "TOEFL") false 80
    [strL "79", strL "80", strL "90", strL "100"] 140
    [strL "reading", strL "listening", strL "speaking", strL "writing",
     strL "section", strL "minimum"]) none cs ||
  searchGo (litNumTailAt (strL "PTE") true 80
    [strL "58", strL "60", strL "61"] 140
    [strL "communicative", strL "skill", strL "minimum", strL "each"]) none cs ||
  containsCI cs (strL "English language requirement") ||
  containsCI cs (strL "English proficiency") ||
  containsCI cs (strL "minimum English")

/-! ## Configuration tables of the source -/

/-- `PREFERRED_PATH_HINTS` from the source. -/
def PREFERRED_PATH_HINTS : List String :=
  ["handbook", "study", "courses", "course", "program", "programs", "study-areas"]

/-- The disallowed tokens list inlined in `score_url`. -/
def BAD_URL_TOKENS : List String :=
  ["login", "apply", "register", "contact", "privacy", "terms", "calendar"]

/-- `UNIVERSITY_DOMAINS` from the source. -/
def UNIVERSITY_DOMAINS : List (String × String) :=
  [("Monash University", "monash.edu"),
   ("University of Washington", "uw.edu"),
   ("UH Manoa", "manoa.hawaii.edu")]

/-! ## HTTP helpers -/

/-- `http_get_text`: a URL whose lower-cased form ends in `.pdf` is skipped
with empty content and no network call; otherwise the single
`requests.get` + `raise_for_status` call (`net url`) decides the result —
an exception propagates to the caller as `Except.error`. -/
def http_get_text (net : String → Except Unit String) (url : String) :
    Except Unit String :=
  if endsWithStr (lowerStr url) ".pdf" then Except.ok "" else net url

/-- Number of network requests `http_get_text` issues for `url`: zero on
the PDF early return, otherwise exactly the one `requests.get` in its
body (there is no retry loop in the source). -/
def http_get_text_calls (url : String) : Nat :=
  if endsWithStr (lowerStr url) ".pdf" then 0 else 1

/-! ## Google CSE search -/

/-- The body of the inner item loop of `google_cse_search`: a truthy link
not yet in the seen set is added to both components of the
`(seen, ranked)` state. -/
def cseItemStep (st : List String × List String) (it : Option String) :
    List String × List String :=
  match it with
  | none => st
  | some link =>
    if link ≠ "" ∧ link ∉ st.1 then (link :: st.1, st.2 ++ [link]) else st

/-- The body of the outer query loop of `google_cse_search`: a failed call
is logged and skipped, a successful one runs the item loop. -/
def cseQueryStep (svc : String → Int → Option (List (Option String))) (num : Int)
    (st : List String × List String) (q : String) : List String × List String :=
  match svc q num with
  | none => st
  | some items => items.foldl cseItemStep st

/-- `google_cse_search`: one `svc` call per query in list order; on success
every truthy link not yet in the seen set is appended to `ranked`; a failed
call (`none`) is logged and skipped.  State is `(seen, ranked)` as in the
source. -/
def google_cse_search (svc : String → Int → Option (List (Option String)))
    (queries : List String) (num : Int) : List String :=
  (queries.foldl (cseQueryStep svc num) (([], []) : List String × List String)).2

/-- The truthy links contributed by one `svc` response: none for a failed
call, otherwise the present, non-empty `link` fields in order. -/
def cseLinks (r : Option (List (Option String))) : List String :=
  match r with
  | none => []
  | some items => items.filterMap (fun it =>
      match it with
      | some link => if link ≠ "" then some link else none
      | none => none)

/-- The item step restricted to the truthy links: add a fresh link to the
seen set and the ranked list. -/
def addLink (st : List String × List String) (link : String) :
    List String × List String :=
  if link ∈ st.1 then st else (link :: st.1, st.2 ++ [link])

/-! ## URL filtering and scoring -/

/-- `urlparse(url).netloc`: strip a leading `scheme:` (a letter followed by
letters, digits, `+`, `-`, `.`, up to a colon), then, if the remainder
starts with `//`, the host part up to the next `/`, `?` or `#`. -/
def dropSchemeAux : List Char → Option (List Char)
  | [] => none
  | c :: cs => if c == ':' then some cs else if c.isAlphanum || c == '+' || c == '-' || c == '.' then dropSchemeAux cs else none

/-- Remove the URL scheme prefix when present. -/
def dropScheme (url : List Char) : List Char :=
  match url with
  | c :: cs =>
    if c.isAlpha then
      match dropSchemeAux cs with
      | some r => r
      | none => url
    else url
  | [] => url

/-- The netloc component of a URL. -/
def netlocOf (url : List Char) : List Char :=
  let rest := dropScheme url
  match rest with
  | '/' :: '/' :: r => r.takeWhile (fun c => c != '/' && c != '?' && c != '#')
  | _ => []

/-- `is_same_domain`: the lower-cased netloc contains the domain string. -/
def is_same_domain (url : String) (domain : String) : Bool :=
  isInfixB domain.toList ((netlocOf url.toList).map Char.toLower)

/-- `score_url`: +5 for a truthy known domain occurring in the lower-cased
URL, +3 per preferred path hint present as `/hint/`, suffix `/hint` or
`.hint.`, −3 per disallowed token present, −1 when the URL does not start
with `https://`. -/
def score_url (url : String) (university_domain : Option String) : Int :=
  let lower := lowerStr url
  let s1 : Int :=
    match university_domain with
    | some d => if d ≠ "" ∧ containsStr lower d then 5 else 0
    | none => 0
  let s2 := PREFERRED_PATH_HINTS.foldl (fun sc hint =>
    if containsStr lower ("/" ++ hint ++ "/") || endsWithStr lower ("/" ++ hint)
        || containsStr lower ("." ++ hint ++ ".") then sc + 3 else sc) s1
  let s3 := BAD_URL_TOKENS.foldl (fun sc bad =>
    if containsStr lower ("/" ++ bad) || containsStr lower bad then sc - 3 else sc) s2
  if !startsWithStr lower "https://" then s3 - 1 else s3

/-- `university.lower().replace(" ", "")`. -/
def uniNormOf (university : String) : String :=
  String.mk ((lowerStr university).toList.filter (fun c => c != ' '))

/-- The survival test of `filter_and_rank_urls` for one URL: not a PDF;
with a truthy known domain, the domain must match; otherwise the
normalised university name must occur in the lower-cased URL. -/
def urlSurvives (url : String) (uniNorm : String) (dom : Option String) : Bool :=
  let lower := lowerStr url
  if endsWithStr lower ".pdf" then false
  else
    match dom with
    | some d => if d = "" then containsStr lower uniNorm else is_same_domain url d
    | none => containsStr lower uniNorm

/-- Stable descending insertion by integer key: the new element goes after
every already-placed element of greater-or-equal key. -/
def insertDesc {α : Type} (key : α → Int) (a : α) : List α → List α
  | [] => [a]
  | b :: bs => if key b < key a then a :: b :: bs else b :: insertDesc key a bs

/-- Python `sorted(l, key=key, reverse=True)`: a stable sort placing larger
keys first and keeping the original order inside every key class (CPython's
sort is stable, and `reverse=True` preserves stability). -/
def sortByDesc {α : Type} (key : α → Int) (l : List α) : List α :=
  l.foldl (fun acc a => insertDesc key a acc) []

/-- `filter_and_rank_urls`: drop PDFs and off-domain / off-university URLs,
sort stably by `score_url` descending, truncate with `[:limit]`. -/
def filter_and_rank_urls (urls : List String) (university : String)
    (university_domain : Option String) (limit : Int) : List String :=
  let uniNorm := uniNormOf university
  let filtered := urls.filter (fun url => urlSurvives url uniNorm university_domain)
  pySlice limit (sortByDesc (fun u => score_url u university_domain) filtered)

/-! ## HTML snippet extraction -/

/-- The pure tail of `extract_snippets` applied to the selected block texts
(in document order, sibling context already appended by `sel`): the
collection loop breaks once `max_snippets` snippets are selected, then the
seen-set loop deduplicates keeping first occurrences, then `[:max_snippets]`
truncates. -/
def extract_snippets (selected : List String) (max_snippets : Nat) : List String :=
  (dedupF (selected.take max_snippets)).take max_snippets

/-! ## English requirement normalization -/

/-- The permissive fallback test of `normalize_english_requirements`:
`"ielts"` in the lower-cased text together with `"6.5"` or `"7.0"`, or
`"toefl"` with one of 79/80/90/100, or `"pte"` with one of 58/60/61. -/
def fallbackHit (t : String) : Bool :=
  let l := lowerStr t
  (containsStr l "ielts" && (containsStr t "6.5" || containsStr t "7.0")) ||
  (containsStr l "toefl" && (containsStr t "79" || containsStr t "80" ||
    containsStr t "90" || containsStr t "100")) ||
  (containsStr l "pte" && (containsStr t "58" || containsStr t "60" ||
    containsStr t "61"))

/-- `normalize_english_requirements`: per snippet, whitespace-normalise;
keep it if the strict regex matches, otherwise if the fallback test hits;
finally deduplicate keeping order. -/
def normalize_english_requirements (text_blocks : List String) : List String :=
  let results := text_blocks.foldl (fun acc t =>
    let tn := normWs t
    if englishRegexMatch tn then acc ++ [tn]
    else if fallbackHit tn then acc ++ [tn]
    else acc) []
  dedupF results

/-! ## Study level and query strategy -/

/-- `detect_study_level`. -/
def detect_study_level (program : String) : String :=
  let p := lowerStr program
  if containsStr p "master" || containsStr p "msc" || containsStr p "ms " ||
      containsStr p "m.s" then "postgraduate"
  else if containsStr p "bachelor" || containsStr p "btech" || containsStr p "b.e" ||
      containsStr p "undergrad" then "undergraduate"
  else if containsStr p "phd" || containsStr p "doctor" || containsStr p "d.phil" then
    "research"
  else "unknown"

/-- Python truthiness of the optional domain (`None` and `""` are falsy). -/
def domTruthy (dom : Option String) : Option String :=
  match dom with
  | some d => if d = "" then none else some d
  | none => none

/-- `build_queries`: the course templates, the synonym-registry additions,
and the English templates, each filtered of empty strings and cut with
`[:max_results]`.  `year` is accepted and unused, as in the source. -/
def build_queries (university program : String) (university_domain : Option String)
    (_year : Option Int) (max_results : Int) : List String × List String :=
  let _level := detect_study_level program
  let base_course_terms : List String :=
    match domTruthy university_domain with
    | some d =>
      ["\"" ++ program ++ "\" site:" ++ d,
       program ++ " site:" ++ d ++ " handbook",
       program ++ " site:" ++ d ++ " course",
       program ++ " site:" ++ d ++ " study",
       program ++ " site:" ++ d ++ " \"entry requirements\"",
       program ++ " site:" ++ d ++ " prerequisites"]
    | none =>
      ["\"" ++ program ++ "\" \"" ++ university ++ "\"",
       program ++ " " ++ university ++ " handbook",
       program ++ " " ++ university ++ " course",
       program ++ " " ++ university ++ " study",
       program ++ " " ++ university ++ " \"entry requirements\"",
       program ++ " " ++ university ++ " prerequisites"]
  let p := lowerStr program
  let syn1 : List String :=
    if containsStr p "computer science" || containsStr p "cs" then
      match domTruthy university_domain with
      | some d =>
        ["\"computer science\" site:" ++ d ++ " handbook",
         "bachelor computer science site:" ++ d,
         "master computer science site:" ++ d]
      | none =>
        ["\"computer science\" \"" ++ university ++ "\" handbook",
         "bachelor computer science \"" ++ university ++ "\"",
         "master computer science \"" ++ university ++ "\""]
    else []
  let syn2 : List String :=
    if containsStr p "biomedical" && containsStr p "engineer" then
      match domTruthy university_domain with
      | some d =>
        ["biomedical engineering site:" ++ d ++ " handbook",
         "bachelor biomedical engineering site:" ++ d,
         "master biomedical engineering site:" ++ d]
      | none =>
        ["biomedical engineering \"" ++ university ++ "\" handbook",
         "bachelor biomedical engineering \"" ++ university ++ "\"",
         "master biomedical engineering \"" ++ university ++ "\""]
    else []
  let course_queries := base_course_terms ++ syn1 ++ syn2
  let english_terms : List String :=
    match domTruthy university_domain with
    | some d =>
      ["site:" ++ d ++ " \"English language requirements\"",
       "site:" ++ d ++ " English proficiency admission",
       "site:" ++ d ++ " IELTS TOEFL PTE undergraduate",
       "site:" ++ d ++ " IELTS TOEFL PTE postgraduate"]
    | none =>
      ["\"English language requirements\" \"" ++ university ++ "\"",
       "English proficiency admission \"" ++ university ++ "\"",
       "IELTS TOEFL PTE undergraduate \"" ++ university ++ "\"",
       "IELTS TOEFL PTE postgraduate \"" ++ university ++ "\""]
  (pySlice max_results (course_queries.filter (fun q => q ≠ "")),
   pySlice max_results (english_terms.filter (fun q => q ≠ "")))

/-! ## Scrape pipeline -/

/-- `discover_course_pages`. -/
def discover_course_pages (svc : String → Int → Option (List (Option String)))
    (university program : String) (university_domain : Option String)
    (year : Option Int) (max_results : Int) : List String :=
  let course_queries := (build_queries university program university_domain year max_results).1
  let urls := google_cse_search svc course_queries max_results
  filter_and_rank_urls urls university university_domain max_results

/-- `discover_english_pages`: English queries with an empty program, then a
domain filter when the domain is truthy, then dedup and `[:max_results]`. -/
def discover_english_pages (svc : String → Int → Option (List (Option String)))
    (university : String) (university_domain : Option String) (max_results : Int) :
    List String :=
  let english_queries := (build_queries university "" university_domain none max_results).2
  let urls := google_cse_search svc english_queries max_results
  let filtered := urls.filter (fun u =>
    match domTruthy university_domain with
    | some d => is_same_domain u d
    | none => true)
  pySlice max_results (dedupF filtered)

/-- The body of the `parse_and_collect` loop for one URL, with the caught
exceptions and skips folded into `Option`: `none` when the fetch raises,
the body is empty, the parse raises, or no snippet is selected. -/
def processOne (net : String → Except Unit String)
    (sel : String → Except Unit (List String)) (url : String) :
    Option (List String) :=
  match http_get_text net url with
  | Except.error _ => none
  | Except.ok html =>
    if html = "" then none
    else
      match sel html with
      | Except.error _ => none
      | Except.ok selected =>
        if extract_snippets selected 12 = [] then none
        else some (extract_snippets selected 12)

/-- `parse_and_collect`: fetch and extract each URL in order into the
insertion-ordered dict; every fault is caught inside the loop and only
skips that URL. -/
def parse_and_collect (net : String → Except Unit String)
    (sel : String → Except Unit (List String)) (urls : List String) :
    List (String × List String) :=
  urls.foldl (fun collected url =>
    match processOne net sel url with
    | none => collected
    | some snippets => assocSet collected url snippets) []

/-- The record returned by the `/scrape` endpoint (the always-`None`
`rawHTML` slot is omitted). -/
structure ScrapeResponse where
  dataFound : Bool
  sourceURLs : List String
  snippets : List String
deriving DecidableEq

/-- The final response construction of `scrape`: `dataFound` is the
truthiness of the uncapped final list, `snippets` is the final list cut
with `[:max(10, max_results * 3)]`. -/
def mkScrapeResponse (max_results : Int) (sourceURLs final_snippets : List String) :
    ScrapeResponse :=
  { dataFound := decide (final_snippets ≠ []),
    sourceURLs := sourceURLs,
    snippets := pySlice (max 10 (max_results * 3)) final_snippets }

/-- The `scrape` endpoint after request parsing: discovery, fetching,
normalization and merging, exactly as in the source. -/
def scrape (svc : String → Int → Option (List (Option String)))
    (net : String → Except Unit String)
    (sel : String → Except Unit (List String))
    (university program : String) (year : Option Int) (max_results : Int) :
    ScrapeResponse :=
  let university_domain := UNIVERSITY_DOMAINS.lookup university
  let course_urls := discover_course_pages svc university program university_domain year max_results
  let english_urls := discover_english_pages svc university university_domain max_results
  let course_sources := parse_and_collect net sel course_urls
  let english_sources := parse_and_collect net sel english_urls
  let english_snippets := english_sources.foldl (fun acc ub =>
    let normalized := normalize_english_requirements ub.2
    let use_blocks := if normalized = [] then ub.2.filter (fun b => englishRegexMatch b) else normalized
    if use_blocks = [] then acc else acc ++ use_blocks) []
  let source_map := english_sources.foldl (fun m ub =>
    match m.lookup ub.1 with
    | some existing => assocSet m ub.1 (existing ++ ub.2.filter (fun b => decide (b ∉ existing)))
    | none => m ++ [ub]) course_sources
  let final_snippets := (course_urls.foldl (fun acc url =>
    match course_sources.lookup url with
    | some s => acc ++ s
    | none => acc) []) ++ english_snippets
  mkScrapeResponse max_results (source_map.map Prod.fst) final_snippets

/-! ## Concrete scenario inputs

Used to evaluate the pipeline at specific requests.  The `sel` outputs are
texts the extraction selector keeps because they contain the
`GENERAL_KEYWORDS` anchors `"entry requirements"` / `"tuition"`; neither
text matches `ENGLISH_REGEX` (no IELTS/TOEFL/PTE token, no literal English
requirement phrase) nor the numeric fallback tokens. -/

/-- A search service returning the same two Monash course links for every
query. -/
def cseTwoCourse : String → Int → Option (List (Option String)) :=
  fun _ _ => some [some "https://monash.edu/course/a", some "https://monash.edu/course/b"]

/-- A fetcher returning the same HTML body for every URL. -/
def netCourse : String → Except Unit String :=
  fun _ => Except.ok "<html>entry requirements page</html>"

/-- A selector extracting the same single block text from every body. -/
def selCourse : String → Except Unit (List String) :=
  fun _ => Except.ok ["Entry requirements GPA 3.0"]

/-- A search service returning one off-domain link for every query. -/
def cseOther : String → Int → Option (List (Option String)) :=
  fun _ _ => some [some "https://other.edu/english"]

/-- A fetcher returning a fees page for every URL. -/
def netOther : String → Except Unit String :=
  fun _ => Except.ok "<html>fees</html>"

/-- A selector extracting one tuition-keyword block text. -/
def selOther : String → Except Unit (List String) :=
  fun _ => Except.ok ["Annual tuition fees 30000"]

/-! ## Helper lemmas: `pySlice` -/

theorem pySlice_of_nonneg {α : Type} {k : Int} (h : 0 ≤ k) (l : List α) :
    pySlice k l = l.take k.toNat := by
  simp [pySlice, h]

theorem pySlice_sublist {α : Type} (k : Int) (l : List α) :
    (pySlice k l).Sublist l := by
  unfold pySlice
  by_cases h : 0 ≤ k
  · simp [h, List.take_sublist]
  · simp [h, List.take_sublist]

theorem length_pySlice_le_int {α : Type} {k : Int} (h : 0 ≤ k) (l : List α) :
    ((pySlice k l).length : Int) ≤ k := by
  rw [pySlice_of_nonneg h]
  calc ((l.take k.toNat).length : Int) ≤ (k.toNat : Int) := by
        exact_mod_cast List.length_take_le _ _
    _ = k := Int.toNat_of_nonneg h

theorem pySlice_eq_nil_iff {α : Type} {k : Int} (h : 1 ≤ k) (l : List α) :
    pySlice k l = [] ↔ l = [] := by
  rw [pySlice_of_nonneg (le_trans (by norm_num) h), List.take_eq_nil_iff]
  have hk : k.toNat ≠ 0 := by
    intro h0
    have := Int.toNat_of_nonneg (le_trans (by norm_num) h)
    omega
  simp [hk]

/-! ## Helper lemmas: seen-set deduplication -/

theorem dedupSeen_not_mem_seen (l : List String) :
    ∀ seen x, x ∈ dedupSeen seen l → x ∉ seen := by
  induction l with
  | nil => intro seen x hx; simp [dedupSeen] at hx
  | cons y ys ih =>
    intro seen x hx
    by_cases hy : y ∈ seen
    · rw [dedupSeen, if_pos hy] at hx
      exact ih seen x hx
    · rw [dedupSeen, if_neg hy] at hx
      rcases List.mem_cons.mp hx with hx | hx
      · exact hx ▸ hy
      · intro hmem
        exact ih (y :: seen) x hx (List.mem_cons_of_mem _ hmem)

theorem dedupSeen_nodup (seen l : List String) : (dedupSeen seen l).Nodup := by
  induction l generalizing seen with
  | nil => simp [dedupSeen]
  | cons y ys ih =>
    by_cases hy : y ∈ seen
    · rw [dedupSeen, if_pos hy]
      exact ih seen
    · rw [dedupSeen, if_neg hy]
      refine List.Nodup.cons ?_ (ih (y :: seen))
      intro hmem
      exact dedupSeen_not_mem_seen ys (y :: seen) y hmem (List.mem_cons_self _ _)

theorem dedupSeen_append (seen l1 l2 : List String) :
    dedupSeen seen (l1 ++ l2) = dedupSeen seen l1 ++ dedupSeen (seenAfter seen l1) l2 := by
  induction l1 generalizing seen with
  | nil => simp [dedupSeen, seenAfter]
  | cons y ys ih =>
    by_cases hy : y ∈ seen
    · simp only [List.cons_append, dedupSeen, seenAfter, if_pos hy]
      exact ih seen
    · simp only [List.cons_append, dedupSeen, seenAfter, if_neg hy, List.append_eq]
      rw [ih (y :: seen)]

theorem seenAfter_append (seen l1 l2 : List String) :
    seenAfter seen (l1 ++ l2) = seenAfter (seenAfter seen l1) l2 := by
  induction l1 generalizing seen with
  | nil => simp [seenAfter]
  | cons y ys ih =>
    by_cases hy : y ∈ seen
    · simp only [List.cons_append, seenAfter, if_pos hy]
      exact ih seen
    · simp only [List.cons_append, seenAfter, if_neg hy]
      exact ih (y :: seen)

theorem dedupSeen_congr {seen1 seen2 : List String}
    (h : ∀ x, x ∈ seen1 ↔ x ∈ seen2) (l : List String) :
    dedupSeen seen1 l = dedupSeen seen2 l := by
  induction l generalizing seen1 seen2 with
  | nil => simp [dedupSeen]
  | cons y ys ih =>
    by_cases hy : y ∈ seen1
    · rw [dedupSeen, if_pos hy, dedupSeen, if_pos ((h y).mp hy)]
      exact ih h
    · rw [dedupSeen, if_neg hy, dedupSeen, if_neg (fun hc => hy ((h y).mpr hc))]
      refine congrArg _ (ih ?_)
      intro x
      simp only [List.mem_cons]
      exact or_congr Iff.rfl (h x)

/-! ## Helper lemmas: `google_cse_search` -/

theorem cseItemStep_fold (items : List (Option String)) :
    ∀ st, items.foldl cseItemStep st = (cseLinks (some items)).foldl addLink st := by
  induction items with
  | nil => intro st; rfl
  | cons it its ih =>
    intro st
    match it with
    | none =>
      rw [List.foldl_cons]
      show its.foldl cseItemStep st = _
      rw [ih st]
      rfl
    | some link =>
      by_cases hne : link = ""
      · subst hne
        rw [List.foldl_cons]
        show its.foldl cseItemStep (cseItemStep st (some "")) = _
        have h1 : cseItemStep st (some "") = st := by
          simp [cseItemStep]
        rw [h1, ih st]
        rfl
      · rw [List.foldl_cons]
        have h2 : cseLinks (some (some link :: its)) = link :: cseLinks (some its) := by
          simp [cseLinks, List.filterMap_cons, hne]
        rw [h2, List.foldl_cons]
        have h3 : cseItemStep st (some link) = addLink st link := by
          by_cases hmem : link ∈ st.1
          · simp [cseItemStep, addLink, hmem]
          · simp [cseItemStep, addLink, hmem, hne]
        rw [h3, ih (addLink st link)]

theorem addLink_fold (links : List String) :
    ∀ st : List String × List String,
      (links.foldl addLink st).2 = st.2 ++ dedupSeen st.1 links ∧
      (links.foldl addLink st).1 = seenAfter st.1 links := by
  induction links with
  | nil => intro st; simp [dedupSeen, seenAfter]
  | cons link rest ih =>
    intro st
    by_cases hmem : link ∈ st.1
    · rw [List.foldl_cons]
      have h1 : addLink st link = st := by simp [addLink, hmem]
      rw [h1, dedupSeen, if_pos hmem, seenAfter, if_pos hmem]
      exact ih st
    · rw [List.foldl_cons]
      have h1 : addLink st link = (link :: st.1, st.2 ++ [link]) := by
        simp [addLink, hmem]
      rw [h1, dedupSeen, if_neg hmem, seenAfter, if_neg hmem]
      have := ih (link :: st.1, st.2 ++ [link])
      refine ⟨?_, this.2⟩
      rw [this.1]
      simp

theorem cse_fold (svc : String → Int → Option (List (Option String))) (num : Int)
    (queries : List String) :
    ∀ st : List String × List String,
      (queries.foldl (cseQueryStep svc num) st).2 =
        st.2 ++ dedupSeen st.1 (queries.flatMap (fun q => cseLinks (svc q num))) ∧
      (queries.foldl (cseQueryStep svc num) st).1 =
        seenAfter st.1 (queries.flatMap (fun q => cseLinks (svc q num))) := by
  induction queries with
  | nil => intro st; simp [dedupSeen, seenAfter]
  | cons q qs ih =>
    intro st
    rw [List.foldl_cons, List.flatMap_cons]
    rcases hsvc : svc q num with _ | items
    · have h1 : cseQueryStep svc num st q = st := by
        simp [cseQueryStep, hsvc]
      have h2 : cseLinks none = ([] : List String) := rfl
      rw [h1, h2, List.nil_append]
      exact ih st
    · have h1 : cseQueryStep svc num st q = (cseLinks (some items)).foldl addLink st := by
        simp only [cseQueryStep, hsvc]
        exact cseItemStep_fold items st
      rw [h1]
      have hst := addLink_fold (cseLinks (some items)) st
      have hih := ih ((cseLinks (some items)).foldl addLink st)
      constructor
      · rw [hih.1, hst.1, hst.2, dedupSeen_append, List.append_assoc]
      · rw [hih.2, hst.2, seenAfter_append]

/-! ## Helper lemmas: association lists and `parse_and_collect` -/

theorem lookup_eq_none_iff (l : List (String × List String)) (k : String) :
    l.lookup k = none ↔ k ∉ l.map Prod.fst := by
  induction l with
  | nil => simp
  | cons p rest ih =>
    rcases p with ⟨k0, v0⟩
    by_cases hk : k = k0
    · subst hk
      simp [List.lookup]
    · have hbeq : (k == k0) = false := beq_eq_false_iff_ne.mpr hk
      simp only [List.lookup, hbeq, List.map_cons, List.mem_cons]
      simp [ih, hk]

theorem lookup_append_some {l1 l2 : List (String × List String)} {k : String}
    {v : List String} (h : l1.lookup k = some v) : (l1 ++ l2).lookup k = some v := by
  induction l1 with
  | nil => simp [List.lookup] at h
  | cons p rest ih =>
    rcases p with ⟨k0, v0⟩
    by_cases hk : (k == k0) = true
    · simp only [List.lookup, hk] at h ⊢
      exact h
    · simp only [List.lookup, Bool.not_eq_true] at hk
      simp only [List.cons_append, List.lookup, hk] at h ⊢
      exact ih h

theorem lookup_append_none {l1 l2 : List (String × List String)} {k : String}
    (h : l1.lookup k = none) : (l1 ++ l2).lookup k = l2.lookup k := by
  induction l1 with
  | nil => simp
  | cons p rest ih =>
    rcases p with ⟨k0, v0⟩
    by_cases hk : (k == k0) = true
    · simp only [List.lookup, hk] at h
      exact Option.noConfusion h
    · simp only [List.lookup, Bool.not_eq_true] at hk
      simp only [List.cons_append, List.lookup, hk] at h ⊢
      exact ih h

theorem assocSet_eq_self {l : List (String × List String)} {k : String}
    {v : List String} (h : l.lookup k = some v) : assocSet l k v = l := by
  induction l with
  | nil => simp [List.lookup] at h
  | cons p rest ih =>
    rcases p with ⟨k0, v0⟩
    by_cases hk : k0 = k
    · subst hk
      simp only [List.lookup, beq_self_eq_true] at h
      simp only [assocSet, if_pos rfl]
      cases h
      rfl
    · have hbeq : (k == k0) = false := by
        simp [beq_eq_false_iff_ne]
        exact fun hc => hk hc.symm
      simp only [List.lookup, hbeq] at h
      simp only [assocSet, if_neg hk]
      rw [ih h]

theorem assocSet_append_new {l : List (String × List String)} {k : String}
    {v : List String} (h : l.lookup k = none) : assocSet l k v = l ++ [(k, v)] := by
  induction l with
  | nil => rfl
  | cons p rest ih =>
    rcases p with ⟨k0, v0⟩
    by_cases hk : k0 = k
    · subst hk
      simp [List.lookup] at h
    · have hbeq : (k == k0) = false := by
        simp [beq_eq_false_iff_ne]
        exact fun hc => hk hc.symm
      simp only [List.lookup, hbeq] at h
      simp only [assocSet, if_neg hk, List.cons_append]
      rw [ih h]

theorem mem_assocSet {l : List (String × List String)} {k : String}
    {v : List String} {p : String × List String} (h : p ∈ assocSet l k v) :
    p ∈ l ∨ p = (k, v) := by
  induction l with
  | nil =>
    simp only [assocSet, List.mem_singleton] at h
    exact Or.inr h
  | cons q rest ih =>
    rcases q with ⟨k0, v0⟩
    by_cases hk : k0 = k
    · rw [assocSet, if_pos hk] at h
      rcases List.mem_cons.mp h with h | h
      · exact Or.inr h
      · exact Or.inl (List.mem_cons_of_mem _ h)
    · rw [assocSet, if_neg hk] at h
      rcases List.mem_cons.mp h with h | h
      · exact Or.inl (h ▸ List.mem_cons_self _ _)
      · rcases ih h with h | h
        · exact Or.inl (List.mem_cons_of_mem _ h)
        · exact Or.inr h

theorem pac_go (net : String → Except Unit String)
    (sel : String → Except Unit (List String)) :
    ∀ (urls : List String) (acc : List (String × List String)) (seen : List String),
      (∀ u, u ∈ acc.map Prod.fst → u ∈ seen) →
      (∀ u v, u ∈ seen → processOne net sel u = some v → acc.lookup u = some v) →
      urls.foldl (fun collected url =>
        match processOne net sel url with
        | none => collected
        | some snippets => assocSet collected url snippets) acc =
      acc ++ (dedupSeen seen urls).filterMap
        (fun u => (processOne net sel u).map (fun s => (u, s))) := by
  intro urls
  induction urls with
  | nil => intro acc seen _ _; simp [dedupSeen]
  | cons u rest ih =>
    intro acc seen inv2 inv3
    rw [List.foldl_cons]
    by_cases hu : u ∈ seen
    · rw [dedupSeen, if_pos hu]
      rcases hp : processOne net sel u with _ | v
      · exact ih acc seen inv2 inv3
      · show rest.foldl _ (assocSet acc u v) = _
        rw [assocSet_eq_self (inv3 u v hu hp)]
        exact ih acc seen inv2 inv3
    · rw [dedupSeen, if_neg hu, List.filterMap_cons]
      have hkey : u ∉ acc.map Prod.fst := fun hmem => hu (inv2 u hmem)
      have hnone : acc.lookup u = none := (lookup_eq_none_iff acc u).mpr hkey
      rcases hp : processOne net sel u with _ | v
      · show rest.foldl _ acc = acc ++
          List.filterMap (fun x => (processOne net sel x).map (fun s => (x, s)))
            (dedupSeen (u :: seen) rest)
        refine ih acc (u :: seen) (fun w hw => List.mem_cons_of_mem _ (inv2 w hw)) ?_
        intro w x hw hx
        rcases List.mem_cons.mp hw with hw | hw
        · subst hw
          rw [hp] at hx
          exact Option.noConfusion hx
        · exact inv3 w x hw hx
      · show rest.foldl _ (assocSet acc u v) = acc ++
          ((u, v) :: List.filterMap (fun x => (processOne net sel x).map (fun s => (x, s)))
            (dedupSeen (u :: seen) rest))
        rw [assocSet_append_new hnone]
        have inv2a : ∀ w, w ∈ (acc ++ [(u, v)]).map Prod.fst → w ∈ u :: seen := by
          intro w hw
          rw [List.map_append, List.mem_append] at hw
          rcases hw with hw | hw
          · exact List.mem_cons_of_mem _ (inv2 w hw)
          · simp only [List.map_cons, List.map_nil, List.mem_singleton] at hw
            exact hw ▸ List.mem_cons_self _ _
        have inv3a : ∀ w x, w ∈ u :: seen → processOne net sel w = some x →
            (acc ++ [(u, v)]).lookup w = some x := by
          intro w x hw hx
          rcases List.mem_cons.mp hw with hw | hw
          · subst hw
            rw [hp] at hx
            cases hx
            rw [lookup_append_none hnone]
            simp [List.lookup]
          · exact lookup_append_some (inv3 w x hw hx)
        rw [ih (acc ++ [(u, v)]) (u :: seen) inv2a inv3a, List.append_assoc,
          List.singleton_append]

/-- `parse_and_collect` characterised: each URL is processed independently;
the result is the first-occurrence deduplication of the input URLs, each
mapped through `processOne`, with the failing/empty ones dropped. -/
theorem parse_and_collect_eq (net : String → Except Unit String)
    (sel : String → Except Unit (List String)) (urls : List String) :
    parse_and_collect net sel urls =
      (dedupF urls).filterMap (fun u => (processOne net sel u).map (fun s => (u, s))) := by
  rw [parse_and_collect, dedupF,
    pac_go net sel urls [] [] (by intro u h; simp at h) (by intro u v h; simp at h)]
  rfl

/-! ## Helper lemmas: stable descending sort -/

theorem mem_insertDesc {α : Type} (key : α → Int) (a x : α) (l : List α) :
    x ∈ insertDesc key a l ↔ x = a ∨ x ∈ l := by
  induction l with
  | nil => simp [insertDesc]
  | cons b bs ih =>
    by_cases hb : key b < key a
    · rw [insertDesc, if_pos hb]
      simp
    · rw [insertDesc, if_neg hb]
      simp only [List.mem_cons, ih]
      tauto

theorem insertDesc_perm {α : Type} (key : α → Int) (a : α) (l : List α) :
    (insertDesc key a l).Perm (a :: l) := by
  induction l with
  | nil => simp [insertDesc]
  | cons b bs ih =>
    by_cases hb : key b < key a
    · rw [insertDesc, if_pos hb]
    · rw [insertDesc, if_neg hb]
      exact List.Perm.trans (List.Perm.cons b ih) (List.Perm.swap a b bs)

theorem pairwise_insertDesc {α : Type} (key : α → Int) (a : α) {l : List α}
    (h : l.Pairwise (fun x y => key y ≤ key x)) :
    (insertDesc key a l).Pairwise (fun x y => key y ≤ key x) := by
  induction l with
  | nil => simp [insertDesc]
  | cons b bs ih =>
    rcases List.pairwise_cons.mp h with ⟨hb, hbs⟩
    by_cases hlt : key b < key a
    · rw [insertDesc, if_pos hlt]
      refine List.pairwise_cons.mpr ⟨?_, h⟩
      intro x hx
      rcases List.mem_cons.mp hx with hx | hx
      · exact le_of_lt (hx ▸ hlt)
      · exact le_trans (hb x hx) (le_of_lt hlt)
    · rw [insertDesc, if_neg hlt]
      refine List.pairwise_cons.mpr ⟨?_, ih hbs⟩
      intro x hx
      rcases (mem_insertDesc key a x bs).mp hx with hx | hx
      · exact hx ▸ (not_lt.mp hlt)
      · exact hb x hx

theorem filter_insertDesc {α : Type} (key : α → Int) (a : α) {l : List α}
    (h : l.Pairwise (fun x y => key y ≤ key x)) (s : Int) :
    (insertDesc key a l).filter (fun x => key x == s) =
      (if key a == s then l.filter (fun x => key x == s) ++ [a]
       else l.filter (fun x => key x == s)) := by
  induction l with
  | nil =>
    by_cases hs : (key a == s) = true
    · simp [insertDesc, List.filter, hs]
    · simp only [Bool.not_eq_true] at hs
      simp [insertDesc, List.filter, hs]
  | cons b bs ih =>
    rcases List.pairwise_cons.mp h with ⟨hb, hbs⟩
    by_cases hlt : key b < key a
    · rw [insertDesc, if_pos hlt]
      by_cases hs : (key a == s) = true
      · rw [if_pos hs]
        have hnil : (b :: bs).filter (fun x => key x == s) = [] := by
          rw [List.filter_eq_nil_iff]
          intro x hx
          have hxa : key x < key a := by
            rcases List.mem_cons.mp hx with hx | hx
            · exact hx ▸ hlt
            · exact lt_of_le_of_lt (hb x hx) hlt
          have hsa : key a = s := by exact_mod_cast beq_iff_eq.mp hs
          simp only [beq_iff_eq]
          omega
        rw [List.filter_cons, if_pos hs, hnil]
        rfl
      · simp only [Bool.not_eq_true] at hs
        rw [if_neg (by simp [hs])]
        rw [List.filter_cons, hs]
        simp
    · rw [insertDesc, if_neg hlt]
      rw [List.filter_cons, List.filter_cons]
      by_cases hbs2 : (key b == s) = true
      · rw [if_pos hbs2, if_pos hbs2, ih hbs]
        by_cases hs : (key a == s) = true
        · rw [if_pos hs, if_pos hs]
          rfl
        · simp only [Bool.not_eq_true] at hs
          rw [if_neg (by simp [hs]), if_neg (by simp [hs])]
      · simp only [Bool.not_eq_true] at hbs2
        rw [hbs2]
        simp only [Bool.false_eq_true, if_false]
        rw [ih hbs]

theorem sortGo_pairwise {α : Type} (key : α → Int) (l : List α) :
    ∀ acc, acc.Pairwise (fun x y => key y ≤ key x) →
      (l.foldl (fun acc a => insertDesc key a acc) acc).Pairwise
        (fun x y => key y ≤ key x) := by
  induction l with
  | nil => intro acc h; exact h
  | cons a rest ih =>
    intro acc h
    rw [List.foldl_cons]
    exact ih (insertDesc key a acc) (pairwise_insertDesc key a h)

theorem sortGo_filter {α : Type} (key : α → Int) (l : List α) :
    ∀ acc, acc.Pairwise (fun x y => key y ≤ key x) → ∀ s : Int,
      (l.foldl (fun acc a => insertDesc key a acc) acc).filter (fun x => key x == s) =
        acc.filter (fun x => key x == s) ++ l.filter (fun x => key x == s) := by
  induction l with
  | nil => intro acc _ s; simp
  | cons a rest ih =>
    intro acc h s
    rw [List.foldl_cons, ih (insertDesc key a acc) (pairwise_insertDesc key a h) s,
      filter_insertDesc key a h s, List.filter_cons]
    by_cases hs : (key a == s) = true
    · rw [if_pos hs, if_pos hs]
      simp
    · simp only [Bool.not_eq_true] at hs
      rw [hs]
      simp

theorem sortGo_perm {α : Type} (key : α → Int) (l : List α) :
    ∀ acc, (l.foldl (fun acc a => insertDesc key a acc) acc).Perm (acc ++ l) := by
  induction l with
  | nil => intro acc; simp
  | cons a rest ih =>
    intro acc
    rw [List.foldl_cons]
    have h1 := ih (insertDesc key a acc)
    have h2 : (insertDesc key a acc ++ rest).Perm ((a :: acc) ++ rest) :=
      (insertDesc_perm key a acc).append_right rest
    have h3 : ((a :: acc) ++ rest).Perm (acc ++ a :: rest) := by
      rw [List.cons_append]
      exact List.perm_middle.symm
    exact h1.trans (h2.trans h3)

theorem sortByDesc_pairwise {α : Type} (key : α → Int) (l : List α) :
    (sortByDesc key l).Pairwise (fun x y => key y ≤ key x) :=
  sortGo_pairwise key l [] (List.Pairwise.nil)

theorem sortByDesc_filter {α : Type} (key : α → Int) (l : List α) (s : Int) :
    (sortByDesc key l).filter (fun x => key x == s) = l.filter (fun x => key x == s) :=
  sortGo_filter key l [] (List.Pairwise.nil) s

theorem sortByDesc_perm {α : Type} (key : α → Int) (l : List α) :
    (sortByDesc key l).Perm l :=
  sortGo_perm key l []

/-! ## Helper lemmas: extraction, normalization, response record -/

theorem extract_snippets_nodup (selected : List String) (n : Nat) :
    (extract_snippets selected n).Nodup :=
  List.Nodup.sublist (List.take_sublist _ _) (dedupSeen_nodup [] _)

theorem processOne_eq_some {net : String → Except Unit String}
    {sel : String → Except Unit (List String)} {u : String} {v : List String}
    (h : processOne net sel u = some v) : ∃ selected, v = extract_snippets selected 12 := by
  revert h
  unfold processOne
  rcases http_get_text net u with e | html
  · intro h
    exact Option.noConfusion h
  · show (if html = "" then none else _) = some v → _
    by_cases hh : html = ""
    · rw [if_pos hh]
      intro h
      exact Option.noConfusion h
    · rw [if_neg hh]
      rcases sel html with e | selected
      · intro h
        exact Option.noConfusion h
      · show (if extract_snippets selected 12 = [] then none
            else some (extract_snippets selected 12)) = some v → _
        by_cases hs : extract_snippets selected 12 = []
        · rw [if_pos hs]
          intro h
          exact Option.noConfusion h
        · rw [if_neg hs]
          intro h
          exact ⟨selected, (Option.some.inj h).symm⟩

theorem processOne_nodup {net : String → Except Unit String}
    {sel : String → Except Unit (List String)} {u : String} {v : List String}
    (h : processOne net sel u = some v) : v.Nodup := by
  rcases processOne_eq_some h with ⟨selected, rfl⟩
  exact extract_snippets_nodup selected 12

theorem processOne_none_of_net_error {net : String → Except Unit String}
    {sel : String → Except Unit (List String)} {u : String}
    (h : net u = Except.error ()) : processOne net sel u = none := by
  unfold processOne http_get_text
  by_cases hpdf : endsWithStr (lowerStr u) ".pdf" = true
  · rw [if_pos hpdf]
    rfl
  · rw [if_neg hpdf, h]

theorem processOne_none_of_sel_error {net : String → Except Unit String}
    {sel : String → Except Unit (List String)} {u : String} {html : String}
    (hnet : net u = Except.ok html) (hsel : sel html = Except.error ()) :
    processOne net sel u = none := by
  unfold processOne http_get_text
  by_cases hpdf : endsWithStr (lowerStr u) ".pdf" = true
  · rw [if_pos hpdf]
    rfl
  · rw [if_neg hpdf, hnet]
    show (if html = "" then none else _) = none
    by_cases hh : html = ""
    · rw [if_pos hh]
    · rw [if_neg hh, hsel]

theorem mem_keys_filterMap {g : String → Option (List String)} {l : List String}
    {u : String}
    (h : u ∈ (l.filterMap (fun w => (g w).map (fun s => (w, s)))).map Prod.fst) :
    u ∈ l ∧ (g u).isSome := by
  rcases List.mem_map.mp h with ⟨p, hp, hfst⟩
  rcases List.mem_filterMap.mp hp with ⟨w, hw, hfw⟩
  rcases Option.map_eq_some'.mp hfw with ⟨s, hgs, hps⟩
  have hwu : w = u := by
    rw [← hps] at hfst
    exact hfst
  subst hwu
  exact ⟨hw, by rw [hgs]; rfl⟩

theorem dedupSeen_mem {seen l : List String} {x : String}
    (hx : x ∈ dedupSeen seen l) : x ∈ l := by
  induction l generalizing seen with
  | nil => simp [dedupSeen] at hx
  | cons y ys ih =>
    by_cases hy : y ∈ seen
    · rw [dedupSeen, if_pos hy] at hx
      exact List.mem_cons_of_mem _ (ih hx)
    · rw [dedupSeen, if_neg hy] at hx
      rcases List.mem_cons.mp hx with hx | hx
      · exact hx ▸ List.mem_cons_self _ _
      · exact List.mem_cons_of_mem _ (ih hx)

theorem normalize_go (blocks : List String) :
    ∀ acc : List String,
      blocks.foldl (fun acc t =>
        let tn := normWs t
        if englishRegexMatch tn then acc ++ [tn]
        else if fallbackHit tn then acc ++ [tn]
        else acc) acc =
      acc ++ (blocks.map normWs).filter (fun t => englishRegexMatch t || fallbackHit t) := by
  induction blocks with
  | nil => intro acc; simp
  | cons t rest ih =>
    intro acc
    rw [List.foldl_cons, List.map_cons, List.filter_cons]
    show rest.foldl _ (if englishRegexMatch (normWs t) = true then acc ++ [normWs t]
      else if fallbackHit (normWs t) = true then acc ++ [normWs t] else acc) = _
    by_cases hem : englishRegexMatch (normWs t) = true
    · rw [if_pos hem]
      have hpred : (englishRegexMatch (normWs t) || fallbackHit (normWs t)) = true := by
        simp [hem]
      rw [hpred, if_pos rfl, ih (acc ++ [normWs t]), List.append_assoc,
        List.singleton_append]
    · rw [if_neg hem]
      by_cases hfb : fallbackHit (normWs t) = true
      · rw [if_pos hfb]
        have hpred : (englishRegexMatch (normWs t) || fallbackHit (normWs t)) = true := by
          simp [hfb]
        rw [hpred, if_pos rfl, ih (acc ++ [normWs t]), List.append_assoc,
          List.singleton_append]
      · rw [if_neg hfb]
        have hpred : (englishRegexMatch (normWs t) || fallbackHit (normWs t)) = false := by
          simp only [Bool.not_eq_true] at hem hfb
          simp [hem, hfb]
        rw [hpred]
        simp only [Bool.false_eq_true, if_false]
        exact ih acc

theorem mkScrapeResponse_spec (m : Int) (srcs final : List String) :
    (((mkScrapeResponse m srcs final).snippets.length : Int) ≤ max 10 (m * 3)) ∧
    ((mkScrapeResponse m srcs final).dataFound = true ↔
      (mkScrapeResponse m srcs final).snippets ≠ []) := by
  have hcap : (0 : Int) ≤ max 10 (m * 3) := le_trans (by norm_num) (le_max_left _ _)
  have hcap1 : (1 : Int) ≤ max 10 (m * 3) := le_trans (by norm_num) (le_max_left _ _)
  constructor
  · exact length_pySlice_le_int hcap final
  · show decide (final ≠ []) = true ↔ pySlice (max 10 (m * 3)) final ≠ []
    exact Iff.trans (decide_eq_true_iff)
      (not_congr (pySlice_eq_nil_iff hcap1 final)).symm

/-! ## Claim theorems -/

/-- C1: for every request, the final snippet list returned by the pipeline
contains at most `max(10, max_results * 3)` entries, and the `dataFound`
flag is true if and only if the returned snippet list is non-empty. -/
theorem scrape_cap_and_dataFound (svc : String → Int → Option (List (Option String)))
    (net : String → Except Unit String) (sel : String → Except Unit (List String))
    (university program : String) (year : Option Int) (max_results : Int) :
    (((scrape svc net sel university program year max_results).snippets.length : Int) ≤
      max 10 (max_results * 3)) ∧
    ((scrape svc net sel university program year max_results).dataFound = true ↔
      (scrape svc net sel university program year max_results).snippets ≠ []) := by
  unfold scrape
  exact mkScrapeResponse_spec max_results _ _

theorem flatMap_links_nil (svc : String → Int → Option (List (Option String)))
    (num : Int) :
    ∀ queries : List String, (∀ q ∈ queries, svc q num = none) →
      queries.flatMap (fun q => cseLinks (svc q num)) = [] := by
  intro queries
  induction queries with
  | nil => intro _; rfl
  | cons q qs ih =>
    intro hall
    rw [List.flatMap_cons, hall q (List.mem_cons_self _ _),
      ih (fun r hr => hall r (List.mem_cons_of_mem _ hr))]
    rfl

/-- C2: the search aggregation consults the service once per query in list
order and returns exactly the first-occurrence deduplication of the links
of the successful calls, concatenated in call order then within-call order;
its output has no duplicate URL; a failed call contributes nothing while the
remaining queries still contribute; if every call fails the result is the
empty list rather than an error. -/
theorem google_cse_search_spec (svc : String → Int → Option (List (Option String)))
    (queries : List String) (num : Int) :
    google_cse_search svc queries num =
      dedupF (queries.flatMap (fun q => cseLinks (svc q num))) ∧
    (google_cse_search svc queries num).Nodup ∧
    ((∀ q ∈ queries, svc q num = none) → google_cse_search svc queries num = []) := by
  have heq : google_cse_search svc queries num =
      dedupF (queries.flatMap (fun q => cseLinks (svc q num))) := by
    unfold google_cse_search dedupF
    rw [(cse_fold svc num queries ([], [])).1]
    rfl
  refine ⟨heq, ?_, ?_⟩
  · rw [heq]
    exact dedupSeen_nodup [] _
  · intro hall
    rw [heq, flatMap_links_nil svc num queries hall]
    rfl

/-- Witness for C2: with every call failing, the aggregation returns the
empty list. -/
theorem google_cse_search_spec_witness :
    google_cse_search (fun _ _ => none) ["a", "b"] 5 = [] :=
  (google_cse_search_spec (fun _ _ => none) ["a", "b"] 5).2.2 (fun _ _ => rfl)

/-- Counterexample to C3: the page fetch has no retry loop.  On a URL whose
every network attempt fails, the source raises (the exception propagates as
`Except.error`) instead of retrying and returning empty content, and it
performs exactly one network call, not up to three. -/
theorem http_get_text_no_retry_counterexample :
    http_get_text (fun _ => Except.error ()) "https://monash.edu/courses/x" =
      Except.error () ∧
    ¬ (http_get_text (fun _ => Except.error ()) "https://monash.edu/courses/x" =
      Except.ok "") ∧
    http_get_text_calls "https://monash.edu/courses/x" = 1 := by
  refine ⟨rfl, ?_, rfl⟩
  intro h
  have h2 : (Except.error () : Except Unit String) = Except.ok "" := h
  exact Except.noConfusion h2

/-- C3 amended: for every URL not ending in `.pdf`, `http_get_text`
performs exactly one retrieval attempt, with no retry or backoff; its
outcome is exactly the outcome of that single network call, so a failure
propagates to the caller as an exception rather than being converted to
empty content. -/
theorem http_get_text_single_attempt (net : String → Except Unit String)
    (url : String) (h : endsWithStr (lowerStr url) ".pdf" = false) :
    http_get_text net url = net url ∧ http_get_text_calls url = 1 := by
  unfold http_get_text http_get_text_calls
  rw [if_neg (by simp [h]), if_neg (by simp [h])]
  exact ⟨rfl, rfl⟩

/-- Witness for the amended C3 at a concrete URL and network. -/
theorem http_get_text_single_attempt_witness :
    http_get_text (fun _ => Except.ok "A") "https://monash.edu/courses/x" =
      Except.ok "A" ∧
    http_get_text_calls "https://monash.edu/courses/x" = 1 :=
  http_get_text_single_attempt (fun _ => Except.ok "A")
    "https://monash.edu/courses/x" (by decide)

/-- C4: in the fetch-and-extract step, a fetch fault or a parse fault on a
URL leaves that URL absent from the collected map, while the whole loop is
the independent processing of each (first-occurrence) URL — so every
remaining URL is still processed and no fault escapes the loop. -/
theorem parse_and_collect_fault_isolation (net : String → Except Unit String)
    (sel : String → Except Unit (List String)) (urls : List String) :
    (∀ url, url ∈ urls → net url = Except.error () →
      url ∉ (parse_and_collect net sel urls).map Prod.fst) ∧
    (∀ url html, url ∈ urls → net url = Except.ok html →
      sel html = Except.error () →
      url ∉ (parse_and_collect net sel urls).map Prod.fst) ∧
    parse_and_collect net sel urls =
      (dedupF urls).filterMap (fun u => (processOne net sel u).map (fun s => (u, s))) := by
  have heq := parse_and_collect_eq net sel urls
  refine ⟨?_, ?_, heq⟩
  · intro url _ hnet hmem
    rw [heq] at hmem
    have h2 := (mem_keys_filterMap hmem).2
    rw [processOne_none_of_net_error hnet] at h2
    simp at h2
  · intro url html _ hnet hsel hmem
    rw [heq] at hmem
    have h2 := (mem_keys_filterMap hmem).2
    rw [processOne_none_of_sel_error hnet hsel] at h2
    simp at h2

/-- Witness for C4: a URL whose fetch raises is absent from the collected
map. -/
theorem parse_and_collect_fault_isolation_witness :
    "http://u.edu/a" ∉ (parse_and_collect (fun _ => Except.error ())
      (fun _ => Except.ok ["x"]) ["http://u.edu/a"]).map Prod.fst :=
  (parse_and_collect_fault_isolation (fun _ => Except.error ())
    (fun _ => Except.ok ["x"]) ["http://u.edu/a"]).1 "http://u.edu/a"
    (by decide) rfl

/-- C5: the URL ranking equals the stable descending sort of the surviving
URLs truncated with `[:limit]`; the sorted list is ordered by score
descending; within every score class the surviving URLs keep exactly their
original first-seen order (the filter-by-score characterisation of
stability); the sort is a permutation of the surviving URLs; the truncated
output is still sorted and, for a nonnegative limit, has at most `limit`
entries. -/
theorem filter_and_rank_urls_spec (urls : List String) (university : String)
    (dom : Option String) (limit : Int) :
    filter_and_rank_urls urls university dom limit =
      pySlice limit (sortByDesc (fun u => score_url u dom)
        (urls.filter (fun url => urlSurvives url (uniNormOf university) dom))) ∧
    (sortByDesc (fun u => score_url u dom)
        (urls.filter (fun url => urlSurvives url (uniNormOf university) dom))).Pairwise
      (fun a b => score_url b dom ≤ score_url a dom) ∧
    (∀ s : Int, (sortByDesc (fun u => score_url u dom)
        (urls.filter (fun url => urlSurvives url (uniNormOf university) dom))).filter
          (fun u => score_url u dom == s) =
        (urls.filter (fun url => urlSurvives url (uniNormOf university) dom)).filter
          (fun u => score_url u dom == s)) ∧
    (sortByDesc (fun u => score_url u dom)
        (urls.filter (fun url => urlSurvives url (uniNormOf university) dom))).Perm
      (urls.filter (fun url => urlSurvives url (uniNormOf university) dom)) ∧
    (filter_and_rank_urls urls university dom limit).Pairwise
      (fun a b => score_url b dom ≤ score_url a dom) ∧
    (0 ≤ limit → ((filter_and_rank_urls urls university dom limit).length : Int) ≤ limit) := by
  refine ⟨rfl, sortByDesc_pairwise _ _, fun s => sortByDesc_filter _ _ s,
    sortByDesc_perm _ _, ?_, ?_⟩
  · exact List.Pairwise.sublist (pySlice_sublist limit _) (sortByDesc_pairwise _ _)
  · intro hl
    exact length_pySlice_le_int hl _

/-- Witness for C5: the length bound at a concrete nonnegative limit. -/
theorem filter_and_rank_urls_spec_witness :
    ((filter_and_rank_urls ["https://monash.edu/courses/x"] "Monash University"
      (some "monash.edu") 10).length : Int) ≤ 10 :=
  (filter_and_rank_urls_spec ["https://monash.edu/courses/x"] "Monash University"
    (some "monash.edu") 10).2.2.2.2.2 (by norm_num)

/-- C6: with known domain `monash.edu`, the URL
`https://handbook.monash.edu/course/abc` scores 8 (+5 domain, +3 `course`
path hint) and `http://monash.edu/apply/course` scores 4 (+5 domain,
−3 `apply`, +3 `course`, −1 non-https); in either input order, the ranked
output places the first above the second. -/
theorem score_url_monash_example :
    score_url "https://handbook.monash.edu/course/abc" (some "monash.edu") = 8 ∧
    score_url "http://monash.edu/apply/course" (some "monash.edu") = 4 ∧
    filter_and_rank_urls ["https://handbook.monash.edu/course/abc",
        "http://monash.edu/apply/course"] "Monash University" (some "monash.edu") 10 =
      ["https://handbook.monash.edu/course/abc", "http://monash.edu/apply/course"] ∧
    filter_and_rank_urls ["http://monash.edu/apply/course",
        "https://handbook.monash.edu/course/abc"] "Monash University" (some "monash.edu") 10 =
      ["https://handbook.monash.edu/course/abc", "http://monash.edu/apply/course"] := by
  decide

/-- Counterexample to C7: a request in which two different course URLs each
contribute the identical snippet text; the final merged snippet list of the
pipeline then contains that text twice — the source never deduplicates the
final list across URLs. -/
theorem scrape_final_duplicates_counterexample :
    (scrape cseTwoCourse netCourse selCourse "Monash University" "History"
      (some 2025) 5).snippets =
      ["Entry requirements GPA 3.0", "Entry requirements GPA 3.0"] ∧
    ¬ (scrape cseTwoCourse netCourse selCourse "Monash University" "History"
      (some 2025) 5).snippets.Nodup := by
  decide

/-- C7 amended: deduplication holds within a single URL's extraction —
every snippet list stored in the collected map is duplicate-free — but the
final merged list is a plain concatenation across URLs and sides and may
repeat identical text extracted from different URLs (see the
counterexample). -/
theorem parse_and_collect_values_nodup (net : String → Except Unit String)
    (sel : String → Except Unit (List String)) (urls : List String) :
    ∀ url blocks, (url, blocks) ∈ parse_and_collect net sel urls → blocks.Nodup := by
  intro url blocks hmem
  rw [parse_and_collect_eq net sel urls] at hmem
  rcases List.mem_filterMap.mp hmem with ⟨w, _, hfw⟩
  rcases Option.map_eq_some'.mp hfw with ⟨s, hgs, hps⟩
  cases hps
  exact processOne_nodup hgs

/-- Witness for the amended C7 at a concrete collected map. -/
theorem parse_and_collect_values_nodup_witness :
    (["Annual tuition fees 30000"] : List String).Nodup :=
  parse_and_collect_values_nodup netOther selOther ["https://other.edu/english"]
    "https://other.edu/english" ["Annual tuition fees 30000"] (by decide)

/-- Counterexample to C8: the fallback is applied per snippet, not only
when the primary pass yields nothing for the whole set: here the first
snippet passes the strict regex, yet the second still enters the output
through the fallback alone (it fails the strict regex and hits the
`ielts`/`7.0` fallback tokens). -/
theorem normalize_english_fallback_counterexample :
    englishRegexMatch "IELTS overall 6.5 each band" = true ∧
    englishRegexMatch "ielts 7.0 required" = false ∧
    fallbackHit "ielts 7.0 required" = true ∧
    normalize_english_requirements
        ["IELTS overall 6.5 each band", "ielts 7.0 required"] =
      ["IELTS overall 6.5 each band", "ielts 7.0 required"] := by
  decide

/-- C8 amended: the normalizer keeps, per snippet independently, the
whitespace-normalised text when it matches the strict regex or, failing
that, the permissive fallback tokens — regardless of whether other
snippets of the set passed the primary pass — and finally deduplicates. -/
theorem normalize_english_per_snippet (text_blocks : List String) :
    normalize_english_requirements text_blocks =
      dedupF ((text_blocks.map normWs).filter
        (fun t => englishRegexMatch t || fallbackHit t)) := by
  unfold normalize_english_requirements
  rw [normalize_go text_blocks [], List.nil_append]

/-- C9: a URL ending in a PDF suffix is excluded from the URL ranking
regardless of score, and the page fetch returns empty content for it
immediately: zero network calls, and the result does not depend on the
network at all. -/
theorem pdf_hard_reject (url : String) (net net2 : String → Except Unit String)
    (urls : List String) (university : String) (dom : Option String) (limit : Int)
    (h : endsWithStr (lowerStr url) ".pdf" = true) :
    url ∉ filter_and_rank_urls urls university dom limit ∧
    http_get_text net url = Except.ok "" ∧
    http_get_text_calls url = 0 ∧
    http_get_text net url = http_get_text net2 url := by
  refine ⟨?_, ?_, ?_, ?_⟩
  · intro hmem
    have h1 : url ∈ sortByDesc (fun u => score_url u dom)
        (urls.filter (fun u2 => urlSurvives u2 (uniNormOf university) dom)) :=
      List.Sublist.mem hmem (pySlice_sublist limit _)
    have h2 : url ∈ urls.filter (fun u2 => urlSurvives u2 (uniNormOf university) dom) :=
      (sortByDesc_perm _ _).mem_iff.mp h1
    have h3 := (List.mem_filter.mp h2).2
    simp [urlSurvives, h] at h3
  · simp [http_get_text, h]
  · simp [http_get_text_calls, h]
  · simp [http_get_text, h]

/-- Witness for C9 at a concrete PDF URL. -/
theorem pdf_hard_reject_witness :
    "https://monash.edu/handbook.pdf" ∉ filter_and_rank_urls
      ["https://monash.edu/handbook.pdf"] "Monash University" (some "monash.edu") 10 ∧
    http_get_text (fun _ => Except.error ()) "https://monash.edu/handbook.pdf" =
      Except.ok "" ∧
    http_get_text_calls "https://monash.edu/handbook.pdf" = 0 ∧
    http_get_text (fun _ => Except.error ()) "https://monash.edu/handbook.pdf" =
      http_get_text (fun _ => Except.ok "x") "https://monash.edu/handbook.pdf" :=
  pdf_hard_reject "https://monash.edu/handbook.pdf" (fun _ => Except.error ())
    (fun _ => Except.ok "x") ["https://monash.edu/handbook.pdf"] "Monash University"
    (some "monash.edu") 10 (by decide)

/-- C10: a concrete request in which an English-discovery URL appears in
the exposed source-URL list yet contributes no snippet to the final list:
its single extracted snippet is rejected both by normalization and by the
strict-regex secondary filter, so the final list is empty while the source
map still holds the URL. -/
theorem scrape_source_without_snippet :
    (scrape cseOther netOther selOther "X University" "History" (some 2025) 5).sourceURLs =
      ["https://other.edu/english"] ∧
    (scrape cseOther netOther selOther "X University" "History" (some 2025) 5).snippets =
      [] ∧
    parse_and_collect netOther selOther ["https://other.edu/english"] =
      [("https://other.edu/english", ["Annual tuition fees 30000"])] ∧
    normalize_english_requirements ["Annual tuition fees 30000"] = [] ∧
    (["Annual tuition fees 30000"] : List String).filter
      (fun b => englishRegexMatch b) = [] := by
  decide
